import Mathlib

/-!
Shallow embedding of the fundot reader/evaluator (src/object.rs,
src/evaluator.rs, src/main.rs) for verification.

Modelling conventions:
* `i64` is `Int`; range checks (`± 2^63`) appear explicitly where the Rust
  code performs them.
* `f64` is `Rat`: the only floats this program constructs come from parsing
  decimal literals, and every float operation the code performs is `==` or
  the exact cast `i64 -> f64`, both of which are modelled exactly on `Rat`
  (NaN, infinities and cast rounding beyond 2^53 are outside the behaviour
  the claims exercise and are abstracted away).
* `HashMap<Object, Object>` is an association list together with the model
  `objHash` of `impl Hash for Object`; two keys probe the same slot exactly
  when their modelled hash values are equal (the idealised bucket model:
  equal hash streams collide, different hash streams do not).
* `LinkedList<Object>` and `Vec<Object>` are both `List Object`.
* `Arc<dyn Any>` (`Object::Other`) only ever wraps the two primitive
  functions built in `Evaluator::new`, so it is modelled by the enumeration
  `Prim` of those primitives.
-/

namespace Fundot

/-- `enum Object` from src/object.rs. -/
inductive Prim where
  | pGet
  | pQuit
deriving DecidableEq, Repr

inductive Object where
  | null
  | bool (b : Bool)
  | integer (n : Int)
  | float (x : Rat)
  | str (s : String)
  | symbol (s : String)
  | list (l : List Object)
  | vector (v : List Object)
  | map (m : List (Object × Object))
  | other (p : Prim)
deriving Repr

/-- Modelled hash stream of `impl Hash for Object` (src/object.rs lines
46-55): `Integer` hashes its `i64`, `String` and `Symbol` hash their text
(identically, since the enum hashes no discriminant), every other variant
hashes nothing. -/
inductive HashVal where
  | hInt (n : Int)
  | hStr (s : String)
  | hUnit
deriving DecidableEq, Repr

def objHash : Object → HashVal
  | .integer n => .hInt n
  | .str s => .hStr s
  | .symbol s => .hStr s
  | _ => .hUnit

mutual

/-- Structural size of an `Object`, used as the fuel bound for the equality
function below (every nested comparison strictly decreases the combined
size of the two compared values). -/
def objSize : Object → Nat
  | .list l => 1 + objSizeList l
  | .vector v => 1 + objSizeList v
  | .map m => 1 + objSizePairs m
  | _ => 1

def objSizeList : List Object → Nat
  | [] => 0
  | a :: rest => 1 + objSize a + objSizeList rest

def objSizePairs : List (Object × Object) → Nat
  | [] => 0
  | (k, v) :: rest => 1 + objSize k + objSize v + objSizePairs rest

end

mutual

/-- Fuelled form of `impl PartialEq for Object` from src/object.rs lines
24-42, arm by arm.  The fuel only makes the nested recursion structural;
`eqObject` below instantiates it with `objSize a + objSize b`, which
strictly exceeds the depth of every chain of nested comparisons, so the
fuel-exhaustion branches are unreachable (made precise by the adequacy
lemma `eqObjectF_fuel_irrel`).  Note the source has a `(Null, Bool)` arm
but no `(Bool, Null)` arm: the latter falls into the `_ => false`
catch-all. -/
def eqObjectF : Nat → Object → Object → Bool
  | 0, _, _ => false
  | f + 1, a, b =>
    match a, b with
    | .null, .null => true
    | .null, .bool x => !x
    | .bool x, .bool y => x == y
    | .integer x, .integer y => x == y
    | .integer x, .float y => (x : Rat) == y
    | .float x, .integer y => x == (y : Rat)
    | .float x, .float y => x == y
    | .str x, .str y => x == y
    | .symbol x, .symbol y => x == y
    | .list x, .list y => eqObjListF f x y
    | .vector x, .vector y => eqObjListF f x y
    | .map x, .map y => x.length == y.length && mapAllContainedF f x y
    | _, _ => false

/-- Element-wise equality of `LinkedList<Object>` / `Vec<Object>`. -/
def eqObjListF : Nat → List Object → List Object → Bool
  | 0, _, _ => false
  | _ + 1, [], [] => true
  | f + 1, a :: as1, b :: bs1 => eqObjectF f a b && eqObjListF f as1 bs1
  | _ + 1, _, _ => false

/-- `HashMap::eq` body: `other.get(key).map_or(false, |v| value == v)` for
every `(key, value)` of the left map, conjoined. -/
def mapAllContainedF : Nat → List (Object × Object) → List (Object × Object) → Bool
  | 0, _, _ => false
  | _ + 1, [], _ => true
  | f + 1, (k, v) :: rest, y => mapMemEqF f k v y && mapAllContainedF f rest y

/-- `y.get(q)` compared against `v`: find the first entry of `y` whose key
collides with `q` (equal modelled hash) and satisfies `q == storedKey`,
then compare its value with `v`. -/
def mapMemEqF : Nat → Object → Object → List (Object × Object) → Bool
  | 0, _, _, _ => false
  | _ + 1, _, _, [] => false
  | f + 1, q, v, (k, w) :: rest =>
    if objHash q == objHash k && eqObjectF f q k then eqObjectF f v w
    else mapMemEqF f q v rest

end

/-- Fuel used by `eqObject`: strictly larger than the depth of any chain of
nested comparisons starting from `a` vs `b`. -/
def eqFuel (a b : Object) : Nat := objSize a + objSize b

/-- `impl PartialEq for Object` from src/object.rs lines 24-42. -/
def eqObject (a b : Object) : Bool := eqObjectF (eqFuel a b) a b

/-- `HashMap::get` (used by `Evaluator::eval_symbol`, the `get` primitive
and the parser's key lookups): first entry whose key collides with the
query (equal modelled hash) and satisfies `query == storedKey`. -/
def mapGet : List (Object × Object) → Object → Option Object
  | [], _ => none
  | (k, v) :: rest, q =>
    if objHash q == objHash k && eqObject q k then some v
    else mapGet rest q

/-- `HashMap::insert` as called by the map-literal arm of `parse_mut_expr`:
if some stored key collides with the new key (equal modelled hash) and
satisfies `newKey == storedKey`, its value is replaced (the stored key is
kept); otherwise the pair is appended as a fresh entry. -/
def mapInsert : List (Object × Object) → Object → Object → List (Object × Object)
  | [], k, v => [(k, v)]
  | (k0, v0) :: rest, k, v =>
    if objHash k == objHash k0 && eqObject k k0 then (k0, v) :: rest
    else (k0, v0) :: mapInsert rest k v

/-- Discriminant of an `Object`, used to state which cross-variant pairs
compare unequal. -/
def variantTag : Object → Nat
  | .null => 0
  | .bool _ => 1
  | .integer _ => 2
  | .float _ => 3
  | .str _ => 4
  | .symbol _ => 5
  | .list _ => 6
  | .vector _ => 7
  | .map _ => 8
  | .other _ => 9

/-! ## Tokenizer (src/object.rs lines 123-200) -/

/-- Failure modes of the tokenizer model.  `parseFail` is
`ParseObjectError`; `panicked` marks the `unwrap()` on `None` that Rust
performs in `atomize_expr` when a `.` is scanned while the accumulation
buffer is empty (a process abort, not an `Err`). -/
inductive LexErr where
  | parseFail
  | panicked
deriving DecidableEq, Repr

/-- `char::is_numeric` as used on the classes of characters this reader
manipulates.  Rust's method covers all Unicode numeric characters; on the
ASCII inputs these claims exercise it coincides with the ASCII digit
test. -/
def isAsciiDigit (c : Char) : Bool := 48 ≤ c.toNat && c.toNat ≤ 57

def isNumericChar (c : Char) : Bool := isAsciiDigit c

/-- `char::is_whitespace` on the ASCII range the claims exercise: space,
tab, carriage return, line feed (Rust additionally recognises Unicode
whitespace). -/
def isWhitespaceChar (c : Char) : Bool :=
  c.toNat = 32 || c.toNat = 9 || c.toNat = 13 || c.toNat = 10

/-- `char::is_ascii_punctuation`: `!`..`/`, `:`..`@`, `[`..`` ` ``, and
`0x7b`..`~` (33-47, 58-64, 91-96, 123-126). -/
def isAsciiPunct (c : Char) : Bool :=
  (33 ≤ c.toNat && c.toNat ≤ 47) || (58 ≤ c.toNat && c.toNat ≤ 64) ||
    (91 ≤ c.toNat && c.toNat ≤ 96) || (123 ≤ c.toNat && c.toNat ≤ 126)

/-- `atomize_expr_escape_char` (src/object.rs lines 123-136): the five
recognised escapes; anything else is a parse failure (`none`). -/
def escChar : Char → Option Char
  | '"' => some '"'
  | '\\' => some '\\'
  | 'n' => some '\n'
  | 'r' => some '\r'
  | 't' => some '\t'
  | _ => none

/-- `atomize_expr_chars_to_str` (src/object.rs lines 138-150): consume
characters up to the closing unescaped `"`, returning the string contents
and the remaining characters; running out of input (also right after a
backslash) or an unrecognised escape is a parse failure. -/
def charsToStr : List Char → String → Except LexErr (String × List Char)
  | [], _ => .error .parseFail
  | c :: rest, acc =>
    if c = '\\' then
      match rest with
      | [] => .error .parseFail
      | e :: rest2 =>
        match escChar e with
        | some c2 => charsToStr rest2 (acc.push c2)
        | none => .error .parseFail
    else if c = '"' then .ok (acc, rest)
    else charsToStr rest (acc.push c)

/-- Numeric value of a nonempty all-digit character list, accumulator
style; `none` as soon as a non-digit appears. -/
def digitsValAux : List Char → Nat → Option Nat
  | [], acc => some acc
  | c :: rest, acc =>
    if isAsciiDigit c then digitsValAux rest (acc * 10 + (c.toNat - 48)) else none

def digitsVal (l : List Char) : Option Nat :=
  if l.isEmpty then none else digitsValAux l 0

def i64Max : Int := 2 ^ 63 - 1

/-- Model of Rust `<i64 as FromStr>::from_str`: optional sign, one or more
ASCII digits, and an in-range check (overflow is an error). -/
def i64FromStr (l : List Char) : Option Int :=
  match l with
  | [] => none
  | c :: rest =>
    if c = '+' then
      (digitsVal rest).bind fun n => if (n : Int) ≤ i64Max then some (n : Int) else none
    else if c = '-' then
      (digitsVal rest).bind fun n => if (n : Int) ≤ 2 ^ 63 then some (-(n : Int)) else none
    else
      (digitsVal l).bind fun n => if (n : Int) ≤ i64Max then some (n : Int) else none

/-- Helper for `f64FromStr`: split off the maximal leading run of ASCII
digits. -/
def spanDigits : List Char → List Char × List Char
  | [] => ([], [])
  | c :: rest =>
    if isAsciiDigit c then
      let (d, r) := spanDigits rest
      (c :: d, r)
    else ([], c :: rest)

/-- Model of Rust `<f64 as FromStr>::from_str` restricted to finite decimal
forms `[sign] digits ['.' digits] [('e'|'E') [sign] digits]` (at least one
digit in the mantissa), with the exact rational value.  IEEE rounding,
infinities and `inf`/`nan` spellings are abstracted away: the tokenizer
only reaches this parser on digit-started tokens, and no claim depends on
rounding. -/
def f64FromStr (l : List Char) : Option Rat :=
  let (sign, l1) :=
    match l with
    | '+' :: rest => ((1 : Int), rest)
    | '-' :: rest => ((-1 : Int), rest)
    | _ => ((1 : Int), l)
  let (intPart, l2) := spanDigits l1
  let (fracPart, l3) :=
    match l2 with
    | '.' :: rest => spanDigits rest
    | _ => ([], l2)
  if intPart.isEmpty && fracPart.isEmpty then none
  else
    let num : Int :=
      sign * (((digitsValAux intPart 0).getD 0 : Int) * 10 ^ fracPart.length +
        ((digitsValAux fracPart 0).getD 0 : Int))
    let den : Nat := 10 ^ fracPart.length
    match l3 with
    | [] => some (mkRat num den)
    | e :: rest =>
      if e = 'e' || e = 'E' then
        let (esign, rest2) :=
          match rest with
          | '+' :: r => ((1 : Int), r)
          | '-' :: r => ((-1 : Int), r)
          | _ => ((1 : Int), rest)
        (digitsVal rest2).bind fun n =>
          if 0 ≤ esign then some (mkRat (num * 10 ^ n) den)
          else some (mkRat num (den * 10 ^ n))
      else none

/-- `atomize_expr_push` (src/object.rs lines 152-178): classify and emit
the accumulation buffer.  Empty buffer: nothing.  Digit-started buffer:
`i64`, else `f64`, else a parse failure.  `null`/`true`/`false`: their
literal values.  Anything else: a `Symbol`. -/
def atomizePush (acc : List Object) : List Char → Except LexErr (List Object)
  | [] => .ok acc
  | c :: cs =>
    if isNumericChar c then
      match i64FromStr (c :: cs) with
      | some n => .ok (acc ++ [.integer n])
      | none =>
        match f64FromStr (c :: cs) with
        | some x => .ok (acc ++ [.float x])
        | none => .error .parseFail
    else if c :: cs = ['n', 'u', 'l', 'l'] then .ok (acc ++ [.null])
    else if c :: cs = ['t', 'r', 'u', 'e'] then .ok (acc ++ [.bool true])
    else if c :: cs = ['f', 'a', 'l', 's', 'e'] then .ok (acc ++ [.bool false])
    else .ok (acc ++ [.symbol (String.mk (c :: cs))])

/-- Scan loop of `atomize_expr` (src/object.rs lines 180-200).  The fuel
decreases by one per emitted-or-consumed step and every step consumes at
least one character, so `input.length + 1` fuel never runs out.  Faithful
details: the final `.ok acc` on empty input performs NO trailing flush
(the buffer is dropped, as in the source); a `.` with an empty buffer hits
`s.chars().next().unwrap()` on `None` and aborts (`panicked`); a `.` with
a digit-started buffer extends the buffer; any other `.` falls through to
the ASCII-punctuation branch. -/
def atomizeLoop : Nat → List Char → List Object → List Char → Except LexErr (List Object)
  | _, [], acc, _ => .ok acc
  | 0, _ :: _, _, _ => .error .parseFail
  | fuel + 1, c :: rest, acc, buf =>
    if c = '"' then
      match atomizePush acc buf with
      | .error e => .error e
      | .ok acc1 =>
        match charsToStr rest "" with
        | .error e => .error e
        | .ok (s, rest2) => atomizeLoop fuel rest2 (acc1 ++ [.str s]) []
    else if isWhitespaceChar c then
      match atomizePush acc buf with
      | .error e => .error e
      | .ok acc1 => atomizeLoop fuel rest acc1 []
    else if c = '.' then
      match buf with
      | [] => .error .panicked
      | c0 :: _ =>
        if isNumericChar c0 then atomizeLoop fuel rest acc (buf ++ ['.'])
        else
          match atomizePush acc buf with
          | .error e => .error e
          | .ok acc1 => atomizeLoop fuel rest (acc1 ++ [.symbol "."]) []
    else if isAsciiPunct c && c ≠ '_' then
      match atomizePush acc buf with
      | .error e => .error e
      | .ok acc1 => atomizeLoop fuel rest (acc1 ++ [.symbol (String.mk [c])]) []
    else
      atomizeLoop fuel rest acc (buf ++ [c])

/-- `atomize_expr` (src/object.rs lines 180-200). -/
def atomizeExpr (s : String) : Except LexErr (List Object) :=
  atomizeLoop (s.data.length + 1) s.data [] []

/-! ## Structural parser (src/object.rs lines 202-288)

The Rust code consumes a `LinkedList<Object>` destructively from the
front; the model passes the remaining atoms explicitly and returns the
remainder.  All comparisons against reserved delimiter symbols are made
with `eqObject`, exactly as the Rust code compares with `PartialEq`.  The
three delimiter predicates passed to `parse_list` are enumerated by
`Delim`.  The recursion is made structural on a fuel argument that
decreases by one per call; every cycle of mutual calls consumes at least
one atom within at most three nested calls, so `3 * atoms.length + 3`
fuel (used by `parseExpr`) never runs out, and fuel exhaustion is the
error result, which also agrees with the source on every atom list (an
exhausted input inside any of these loops is `ParseObjectError`). -/

inductive Delim where
  | paren
  | vec
  | brace
deriving DecidableEq, Repr

/-- The closures passed to `parse_list`: `)` for lists, `,`/`]` for
vectors, `,`/`0x7d` for maps. -/
def delimTest : Delim → Object → Bool
  | .paren, o => eqObject o (.symbol ")")
  | .vec, o => eqObject o (.symbol ",") || eqObject o (.symbol "]")
  | .brace, o => eqObject o (.symbol ",") || eqObject o (.symbol "\x7d")

mutual

/-- `parse_mut_expr` (src/object.rs lines 216-275): empty input fails;
`(` opens a list, `[` a vector, `0x7b` a map; any other front atom is
popped and returned verbatim. -/
def parseMutExpr : Nat → List Object → Except Unit (Object × List Object)
  | 0, _ => .error ()
  | _ + 1, [] => .error ()
  | fuel + 1, x :: rest =>
    if eqObject x (.symbol "(") then
      match parseList fuel .paren rest with
      | .ok (lst, r) => .ok (.list lst, r.tail)
      | .error e => .error e
    else if eqObject x (.symbol "[") then
      parseVecItems fuel [] rest
    else if eqObject x (.symbol "\x7b") then
      parseMapItems fuel [] rest
    else .ok (x, rest)

/-- `parse_list` (src/object.rs lines 202-214): collect recursively parsed
sub-forms until the delimiter predicate matches the front atom (left
unconsumed); exhausting the atoms first is a failure. -/
def parseList : Nat → Delim → List Object → Except Unit (List Object × List Object)
  | 0, _, _ => .error ()
  | _ + 1, _, [] => .error ()
  | fuel + 1, d, x :: rest =>
    if delimTest d x then .ok ([], x :: rest)
    else
      match parseMutExpr fuel (x :: rest) with
      | .ok (v, r) =>
        match parseList fuel d r with
        | .ok (seg, r2) => .ok (v :: seg, r2)
        | .error e => .error e
      | .error e => .error e

/-- Vector loop of `parse_mut_expr` (src/object.rs lines 226-246): `]`
closes the vector; a leading `,` is popped; each comma/bracket-delimited
segment must reduce to exactly one parsed value. -/
def parseVecItems : Nat → List Object → List Object → Except Unit (Object × List Object)
  | 0, _, _ => .error ()
  | _ + 1, _, [] => .error ()
  | fuel + 1, acc, x :: rest =>
    if eqObject x (.symbol "]") then .ok (.vector acc, rest)
    else
      match parseList fuel .vec (if eqObject x (.symbol ",") then rest else x :: rest) with
      | .ok (seg, r) =>
        if seg.length == 1 then parseVecItems fuel (acc ++ seg) r
        else .error ()
      | .error e => .error e

/-- Map loop of `parse_mut_expr` (src/object.rs lines 247-273): `0x7d`
closes the map; a leading `,` is popped; each segment must reduce to
exactly three parsed values whose middle one equals `Symbol(":")`, and the
key/value pair is inserted with `HashMap::insert`. -/
def parseMapItems : Nat → List (Object × Object) → List Object → Except Unit (Object × List Object)
  | 0, _, _ => .error ()
  | _ + 1, _, [] => .error ()
  | fuel + 1, acc, x :: rest =>
    if eqObject x (.symbol "\x7d") then .ok (.map acc, rest)
    else
      match parseList fuel .brace (if eqObject x (.symbol ",") then rest else x :: rest) with
      | .ok (seg, r) =>
        match seg with
        | [k, colon, v] =>
          if eqObject colon (.symbol ":") then parseMapItems fuel (mapInsert acc k v) r
          else .error ()
        | _ => .error ()
      | .error e => .error e

end

/-- `parse_expr` (src/object.rs lines 277-279): parse the first form from a
clone of the atoms, ignoring any remainder. -/
def parseExpr (atoms : List Object) : Except Unit Object :=
  match parseMutExpr (3 * atoms.length + 3) atoms with
  | .ok (o, _) => .ok o
  | .error e => .error e

/-- `impl FromStr for Object` (src/object.rs lines 281-288): tokenize then
parse.  A structural parse failure is reported as `parseFail`, like the
lexical one (Rust has the single undifferentiated `ParseObjectError`); the
`panicked` outcome of the tokenizer is propagated separately. -/
def Object.fromStr (s : String) : Except LexErr Object :=
  match atomizeExpr s with
  | .error e => .error e
  | .ok atoms =>
    match parseExpr atoms with
    | .ok o => .ok o
    | .error _ => .error .parseFail

/-- Decimal text of an `i64` as produced by the `Integer` arm of
`impl fmt::Display for Object` (src/object.rs line 62, Rust `{}` for
`i64`): digits of the absolute value, preceded by `-` when negative. -/
def natDecDigitsAux : Nat → Nat → List Char → List Char
  | 0, _, acc => acc
  | fuel + 1, n, acc =>
    if n < 10 then Char.ofNat (48 + n) :: acc
    else natDecDigitsAux fuel (n / 10) (Char.ofNat (48 + n % 10) :: acc)

def natDecDigits (n : Nat) : List Char := natDecDigitsAux (n + 1) n []

def intDisplay (i : Int) : String :=
  if i < 0 then String.mk ('-' :: natDecDigits (-i).toNat)
  else String.mk (natDecDigits i.toNat)

/-! ## Evaluator (src/evaluator.rs) -/

/-- `i64 as usize` on a 64-bit target, as performed by the `get` primitive
on the vector index: two's-complement wrap into `[0, 2^64)`. -/
def usizeOfI64 (i : Int) : Nat := (i % (2 : Int) ^ 64).toNat

/-- The primitive `get` (src/evaluator.rs lines 12-36).  Its argument is
the whole call form; the first element is skipped.  Fewer than three
elements: `Null`.  Vector container: the third element must be an
`Integer` and in range after the `usize` cast, else `Null`.  Map
container: `HashMap::get` with the third element as query, else `Null`.
Any other container shape, or a non-list argument: `Null`. -/
def getPrim : Object → Object
  | .list (_ :: second :: third :: _) =>
    match second with
    | .vector v =>
      match third with
      | .integer i =>
        match v.get? (usizeOfI64 i) with
        | some value => value
        | none => .null
      | _ => .null
    | .map m =>
      match mapGet m third with
      | some value => value
      | none => .null
    | _ => .null
  | _ => .null

/-- Invoking a capability handle (`PrimitiveFunction`).  `quit` calls
`process::exit(0)` and never returns a value, modelled as `none`; `get`
returns `some` of its result.  `none` therefore marks process
termination. -/
def applyPrim : Prim → Object → Option Object
  | .pGet, arg => some (getPrim arg)
  | .pQuit, _ => none

/-- The global table built by `Evaluator::new` (src/evaluator.rs lines
43-58): `HashMap::insert` of `get` then `quit`. -/
def globalTable : List (Object × Object) :=
  mapInsert (mapInsert [] (.symbol "get") (.other .pGet)) (.symbol "quit") (.other .pQuit)

/-- `Evaluator::eval_symbol` (src/evaluator.rs lines 68-76): a bound
symbol evaluates to a clone of the bound value, an unbound one to
itself. -/
def evalSymbol (s : String) : Object :=
  match mapGet globalTable (.symbol s) with
  | some o => o
  | none => .symbol s

mutual

/-- `Evaluator::eval` (src/evaluator.rs lines 60-66): symbols are looked
up, lists are dispatched, everything else is self-evaluating.  `none`
means the process exited (the `quit` primitive ran). -/
def eval : Object → Option Object
  | .symbol s => some (evalSymbol s)
  | .list l => evalList l
  | o => some o

/-- `Evaluator::eval_list` (src/evaluator.rs lines 78-95): an empty list
is `Null`; otherwise the head is evaluated, and only a capability handle
is invoked — with the call form `(evaluated head, unevaluated tail)` —
while any other head value yields `Null`. -/
def evalList : List Object → Option Object
  | [] => some .null
  | h :: t =>
    match eval h with
    | none => none
    | some o =>
      match o with
      | .other p => applyPrim p (.list (.other p :: t))
      | _ => some .null

end

/-! ## The duplicated data model of src/main.rs

src/main.rs re-declares `Object` (without the `Other` variant) and its own
`impl PartialEq`.  That implementation matches on `self` first: it has a
`(Bool, Null)` arm (absent from src/object.rs) and NO `Map` arm at all, so
a `Map` on the left falls into the outer `_ => false`, even against
another `Map`.  Its `List`/`Vector` arms recurse element-wise with the
same function, which is plain structural descent, so no fuel is needed
here. -/

inductive ObjectM where
  | null
  | bool (b : Bool)
  | integer (n : Int)
  | float (x : Rat)
  | str (s : String)
  | symbol (s : String)
  | list (l : List ObjectM)
  | vector (v : List ObjectM)
  | map (m : List (ObjectM × ObjectM))
deriving Repr

mutual

/-- `impl PartialEq for Object` from src/main.rs lines 76-130, arm by
arm (outer match on `self`). -/
def eqMain : ObjectM → ObjectM → Bool
  | .null, o =>
    match o with
    | .null => true
    | .bool j => j == false
    | _ => false
  | .bool i, o =>
    match o with
    | .null => i == false
    | .bool j => i == j
    | _ => false
  | .integer i, o =>
    match o with
    | .integer j => i == j
    | .float j => (i : Rat) == j
    | _ => false
  | .float i, o =>
    match o with
    | .integer j => i == (j : Rat)
    | .float j => i == j
    | _ => false
  | .str i, o =>
    match o with
    | .str j => i == j
    | _ => false
  | .symbol i, o =>
    match o with
    | .symbol j => i == j
    | _ => false
  | .list i, o =>
    match o with
    | .list j => eqMainList i j
    | _ => false
  | .vector i, o =>
    match o with
    | .vector j => eqMainList i j
    | _ => false
  | .map _, _ => false

def eqMainList : List ObjectM → List ObjectM → Bool
  | [], [] => true
  | a :: as1, b :: bs1 => eqMain a b && eqMainList as1 bs1
  | _, _ => false

end

mutual

/-- Embedding of the src/main.rs value type into the src/object.rs value
type (they share every variant except `Other`). -/
def toObj : ObjectM → Object
  | .null => .null
  | .bool b => .bool b
  | .integer n => .integer n
  | .float x => .float x
  | .str s => .str s
  | .symbol s => .symbol s
  | .list l => .list (toObjList l)
  | .vector v => .vector (toObjList v)
  | .map m => .map (toObjPairs m)

def toObjList : List ObjectM → List Object
  | [] => []
  | a :: rest => toObj a :: toObjList rest

def toObjPairs : List (ObjectM × ObjectM) → List (Object × Object)
  | [] => []
  | (k, v) :: rest => (toObj k, toObj v) :: toObjPairs rest

end

mutual

/-- `true` when no `Map` value occurs anywhere inside the value. -/
def noMap : ObjectM → Bool
  | .list l => noMapList l
  | .vector v => noMapList v
  | .map _ => false
  | _ => true

def noMapList : List ObjectM → Bool
  | [] => true
  | a :: rest => noMap a && noMapList rest

end

mutual

/-- `true` when no `Bool(false)` value occurs anywhere inside the value. -/
def noBoolFalse : ObjectM → Bool
  | .bool b => b
  | .list l => noBoolFalseList l
  | .vector v => noBoolFalseList v
  | .map m => noBoolFalsePairs m
  | _ => true

def noBoolFalseList : List ObjectM → Bool
  | [] => true
  | a :: rest => noBoolFalse a && noBoolFalseList rest

def noBoolFalsePairs : List (ObjectM × ObjectM) → Bool
  | [] => true
  | (k, v) :: rest => noBoolFalse k && noBoolFalse v && noBoolFalsePairs rest

end

/-! ## Helper lemmas: fuel adequacy for the equality function -/

theorem objSize_pos (a : Object) : 1 ≤ objSize a := by
  cases a <;> simp [objSize]

theorem eqF_irrel (n : Nat) :
    (∀ f g a b, objSize a + objSize b = n → n ≤ f → n ≤ g →
      eqObjectF f a b = eqObjectF g a b) ∧
    (∀ f g x y, objSizeList x + objSizeList y + 1 = n → n ≤ f → n ≤ g →
      eqObjListF f x y = eqObjListF g x y) ∧
    (∀ f g x y, objSizePairs x + objSizePairs y + 1 = n → n ≤ f → n ≤ g →
      mapAllContainedF f x y = mapAllContainedF g x y) ∧
    (∀ f g q v y, objSize q + objSize v + objSizePairs y + 1 = n → n ≤ f → n ≤ g →
      mapMemEqF f q v y = mapMemEqF g q v y) := by
  induction n using Nat.strong_induction_on with
  | _ n ih =>
    refine ⟨?_, ?_, ?_, ?_⟩
    · intro f g a b hm hf hg
      have ha := objSize_pos a
      have hb := objSize_pos b
      obtain ⟨f1, rfl⟩ : ∃ f1, f = f1 + 1 := ⟨f - 1, by omega⟩
      obtain ⟨g1, rfl⟩ : ∃ g1, g = g1 + 1 := ⟨g - 1, by omega⟩
      cases a <;> cases b <;> simp only [eqObjectF] <;> try rfl
      case list.list x y =>
        simp only [objSize] at hm
        exact (ih (objSizeList x + objSizeList y + 1) (by omega)).2.1 f1 g1 x y
          (by omega) (by omega) (by omega)
      case vector.vector x y =>
        simp only [objSize] at hm
        exact (ih (objSizeList x + objSizeList y + 1) (by omega)).2.1 f1 g1 x y
          (by omega) (by omega) (by omega)
      case map.map x y =>
        simp only [objSize] at hm
        have := (ih (objSizePairs x + objSizePairs y + 1) (by omega)).2.2.1 f1 g1 x y
          (by omega) (by omega) (by omega)
        rw [this]
    · intro f g x y hm hf hg
      obtain ⟨f1, rfl⟩ : ∃ f1, f = f1 + 1 := ⟨f - 1, by omega⟩
      obtain ⟨g1, rfl⟩ : ∃ g1, g = g1 + 1 := ⟨g - 1, by omega⟩
      cases x <;> cases y <;> simp only [eqObjListF] <;> try rfl
      case cons.cons a as1 b bs1 =>
        have ha := objSize_pos a
        have hb := objSize_pos b
        simp only [objSizeList] at hm
        have h1 := (ih (objSize a + objSize b) (by omega)).1 f1 g1 a b
          rfl (by omega) (by omega)
        have h2 := (ih (objSizeList as1 + objSizeList bs1 + 1) (by omega)).2.1 f1 g1 as1 bs1
          rfl (by omega) (by omega)
        rw [h1, h2]
    · intro f g x y hm hf hg
      obtain ⟨f1, rfl⟩ : ∃ f1, f = f1 + 1 := ⟨f - 1, by omega⟩
      obtain ⟨g1, rfl⟩ : ∃ g1, g = g1 + 1 := ⟨g - 1, by omega⟩
      cases x with
      | nil => simp only [mapAllContainedF]
      | cons kv rest =>
        obtain ⟨k, v⟩ := kv
        have hk := objSize_pos k
        have hv := objSize_pos v
        simp only [objSizePairs] at hm
        simp only [mapAllContainedF]
        have h1 := (ih (objSize k + objSize v + objSizePairs y + 1) (by omega)).2.2.2 f1 g1 k v y
          rfl (by omega) (by omega)
        have h2 := (ih (objSizePairs rest + objSizePairs y + 1) (by omega)).2.2.1 f1 g1 rest y
          rfl (by omega) (by omega)
        rw [h1, h2]
    · intro f g q v y hm hf hg
      have hq := objSize_pos q
      have hv := objSize_pos v
      obtain ⟨f1, rfl⟩ : ∃ f1, f = f1 + 1 := ⟨f - 1, by omega⟩
      obtain ⟨g1, rfl⟩ : ∃ g1, g = g1 + 1 := ⟨g - 1, by omega⟩
      cases y with
      | nil => simp only [mapMemEqF]
      | cons kw rest =>
        obtain ⟨k, w⟩ := kw
        have hk := objSize_pos k
        have hw := objSize_pos w
        simp only [objSizePairs] at hm
        simp only [mapMemEqF]
        have hc := (ih (objSize q + objSize k) (by omega)).1 f1 g1 q k
          rfl (by omega) (by omega)
        have h1 := (ih (objSize v + objSize w) (by omega)).1 f1 g1 v w
          rfl (by omega) (by omega)
        have h2 := (ih (objSize q + objSize v + objSizePairs rest + 1) (by omega)).2.2.2 f1 g1 q v rest
          rfl (by omega) (by omega)
        rw [hc, h1, h2]

/-- A sufficiently fuelled run of `eqObjectF` computes `eqObject`. -/
theorem eqObjectF_adequate (f : Nat) (a b : Object)
    (h : objSize a + objSize b ≤ f) : eqObjectF f a b = eqObject a b :=
  (eqF_irrel (objSize a + objSize b)).1 f (eqFuel a b) a b rfl h le_rfl

/-! ## Helper lemmas: fuel-free characterisation of `eqObject` -/

theorem eqObjListF_adequate (f : Nat) (x y : List Object)
    (h : objSizeList x + objSizeList y + 1 ≤ f) :
    eqObjListF f x y = eqObject (.list x) (.list y) := by
  have h1 : eqObject (.list x) (.list y) =
      eqObjectF ((objSizeList x + objSizeList y + 1) + 1) (.list x) (.list y) :=
    (eqObjectF_adequate _ _ _ (by simp [objSize]; omega)).symm
  rw [h1]
  simp only [eqObjectF]
  exact (eqF_irrel (objSizeList x + objSizeList y + 1)).2.1 f _ x y rfl h le_rfl

theorem eqObject_list_cons (a b : Object) (as1 bs1 : List Object) :
    eqObject (.list (a :: as1)) (.list (b :: bs1)) =
      (eqObject a b && eqObject (.list as1) (.list bs1)) := by
  have h1 : eqObject (.list (a :: as1)) (.list (b :: bs1)) =
      eqObjListF ((objSizeList (a :: as1) + objSizeList bs1 + objSize b + 1) + 1)
        (a :: as1) (b :: bs1) :=
    (eqObjListF_adequate _ _ _ (by simp [objSizeList]; omega)).symm
  rw [h1]
  simp only [eqObjListF]
  have ha := objSize_pos a
  have hb := objSize_pos b
  rw [eqObjectF_adequate _ _ _ (by simp [objSizeList]; omega),
    eqObjListF_adequate _ _ _ (by simp [objSizeList]; omega)]

theorem eqObject_list_nil_cons (b : Object) (bs1 : List Object) :
    eqObject (.list []) (.list (b :: bs1)) = false := by
  rw [(eqObjListF_adequate ((objSizeList bs1 + objSize b + 2) + 1) [] (b :: bs1)
    (by simp [objSizeList]; omega)).symm]
  simp [eqObjListF]

theorem eqObject_list_cons_nil (a : Object) (as1 : List Object) :
    eqObject (.list (a :: as1)) (.list []) = false := by
  rw [(eqObjListF_adequate ((objSizeList as1 + objSize a + 2) + 1) (a :: as1) []
    (by simp [objSizeList]; omega)).symm]
  simp [eqObjListF]

/-- The `Vector` arm delegates to the same element-wise comparison as the
`List` arm. -/
theorem eqObject_vector_eq_list (x y : List Object) :
    eqObject (.vector x) (.vector y) = eqObject (.list x) (.list y) := by
  have h1 : eqObject (.vector x) (.vector y) =
      eqObjectF ((objSizeList x + objSizeList y + 1) + 1) (.vector x) (.vector y) :=
    (eqObjectF_adequate _ _ _ (by simp [objSize]; omega)).symm
  rw [h1]
  simp only [eqObjectF]
  exact eqObjListF_adequate _ x y (by omega)

/-- `other.get(key).map_or(false, |v| value == v)`, fuel-free. -/
theorem mapMemEqF_spec (y : List (Object × Object)) (f : Nat) (q v : Object)
    (h : objSize q + objSize v + objSizePairs y + 1 ≤ f) :
    mapMemEqF f q v y =
      (match mapGet y q with
        | some w => eqObject v w
        | none => false) := by
  induction y generalizing f with
  | nil =>
    obtain ⟨f1, rfl⟩ : ∃ f1, f = f1 + 1 := ⟨f - 1, by omega⟩
    simp [mapMemEqF, mapGet]
  | cons kw rest ihy =>
    obtain ⟨k, w⟩ := kw
    have hk := objSize_pos k
    have hw := objSize_pos w
    have hq := objSize_pos q
    have hv := objSize_pos v
    obtain ⟨f1, rfl⟩ : ∃ f1, f = f1 + 1 := ⟨f - 1, by omega⟩
    simp only [objSizePairs] at h
    simp only [mapMemEqF, mapGet]
    rw [eqObjectF_adequate f1 q k (by omega)]
    by_cases hc : (objHash q == objHash k && eqObject q k) = true
    · simp only [hc, if_true]
      exact eqObjectF_adequate f1 v w (by omega)
    · simp only [Bool.not_eq_true] at hc
      simp only [hc, if_false]
      exact ihy f1 (by omega)

/-- `HashMap::eq` (the `Map` arm of `eqObject`), fuel-free: equal lengths,
and every key/value pair of the left map is found in the right one (lookup
gated on equal modelled hashes, query key compared on the left). -/
theorem eqObject_map (x y : List (Object × Object)) :
    eqObject (.map x) (.map y) =
      (x.length == y.length &&
        x.all fun kv =>
          match mapGet y kv.1 with
          | some w => eqObject kv.2 w
          | none => false) := by
  have h1 : eqObject (.map x) (.map y) =
      eqObjectF ((objSizePairs x + objSizePairs y + 1) + 1) (.map x) (.map y) :=
    (eqObjectF_adequate _ _ _ (by simp [objSize]; omega)).symm
  rw [h1]
  simp only [eqObjectF]
  have hall : ∀ (x1 : List (Object × Object)) (f : Nat),
      objSizePairs x1 + objSizePairs y + 1 ≤ f →
      mapAllContainedF f x1 y =
        x1.all (fun kv =>
          match mapGet y kv.1 with
          | some w => eqObject kv.2 w
          | none => false) := by
    intro x1
    induction x1 with
    | nil =>
      intro f hf
      obtain ⟨f1, rfl⟩ : ∃ f1, f = f1 + 1 := ⟨f - 1, by omega⟩
      simp [mapAllContainedF]
    | cons kv rest ihx =>
      intro f hf
      obtain ⟨k, v⟩ := kv
      have hk := objSize_pos k
      have hv := objSize_pos v
      obtain ⟨f1, rfl⟩ : ∃ f1, f = f1 + 1 := ⟨f - 1, by omega⟩
      simp only [objSizePairs] at hf
      simp only [mapAllContainedF, List.all_cons]
      rw [mapMemEqF_spec y f1 k v (by omega), ihx f1 (by omega)]
  rw [hall x _ (by omega)]

theorem eqObject_cross (a b : Object) (h : variantTag a ≠ variantTag b)
    (h1 : ¬(variantTag a = 0 ∧ variantTag b = 1))
    (h2 : ¬(variantTag a = 2 ∧ variantTag b = 3))
    (h3 : ¬(variantTag a = 3 ∧ variantTag b = 2)) : eqObject a b = false := by
  have ha := objSize_pos a
  have hb := objSize_pos b
  obtain ⟨f, hf⟩ : ∃ f, eqFuel a b = f + 1 := ⟨eqFuel a b - 1, by unfold eqFuel; omega⟩
  unfold eqObject
  rw [hf]
  cases a <;> cases b <;> simp only [eqObjectF] <;>
    first
      | rfl
      | (exfalso; simp [variantTag] at h h1 h2 h3)

/-- `a == Symbol(s)` under the src/object.rs equality holds exactly for
that symbol: the key fact behind the parser's delimiter dispatch. -/
theorem eqObject_symbol_iff (x : Object) (s : String) :
    eqObject x (.symbol s) = true ↔ x = .symbol s := by
  cases x
  case symbol t =>
    show (t == s) = true ↔ _
    simp
  all_goals
    rw [eqObject_cross _ _ (by simp [variantTag]) (by simp [variantTag])
      (by simp [variantTag]) (by simp [variantTag])]
  all_goals simp

theorem eqObject_symbol_false (x : Object) (s : String) (h : x ≠ .symbol s) :
    eqObject x (.symbol s) = false := by
  cases hx : eqObject x (.symbol s)
  · rfl
  · exact absurd ((eqObject_symbol_iff x s).mp hx) h

/-! ## Helper lemmas: decimal digits and the tokenizer scan -/

theorem charOfNat_toNat (m : Nat) (h : m < 55296) : (Char.ofNat m).toNat = m := by
  simp only [Char.ofNat, Nat.isValidChar]
  rw [dif_pos (Or.inl h)]
  simp [Char.toNat, Char.ofNatAux, UInt32.toNat, UInt32.ofNat', Fin.ofNat']

theorem char_ne_of_toNat_ne (c d : Char) (h : c.toNat ≠ d.toNat) : c ≠ d :=
  fun hc => h (by rw [hc])

/-- Master property of the decimal printer: it prepends a nonempty block of
ASCII digit characters encoding `n` to the accumulator. -/
theorem natDecDigitsAux_spec (fuel : Nat) :
    ∀ n acc, n < fuel →
      ∃ d, natDecDigitsAux fuel n acc = d ++ acc ∧ d ≠ [] ∧
        (∀ c ∈ d, 48 ≤ c.toNat ∧ c.toNat ≤ 57) ∧
        ∀ a, digitsValAux (d ++ acc) a = digitsValAux acc (a * 10 ^ d.length + n) := by
  induction fuel with
  | zero => intro n acc h; omega
  | succ fuel ih =>
    intro n acc h
    by_cases h10 : n < 10
    · refine ⟨[Char.ofNat (48 + n)], ?_, by simp, ?_, ?_⟩
      · simp [natDecDigitsAux, h10]
      · intro c hc
        simp at hc
        subst hc
        rw [charOfNat_toNat _ (by omega)]
        omega
      · intro a
        have ht : (Char.ofNat (48 + n)).toNat = 48 + n := charOfNat_toNat _ (by omega)
        simp only [List.cons_append, List.nil_append, digitsValAux, isAsciiDigit, ht]
        rw [if_pos (by simp; omega)]
        norm_num
    · have hrec := ih (n / 10) (Char.ofNat (48 + n % 10) :: acc) (by omega)
      obtain ⟨d, hd, hne, hdig, hval⟩ := hrec
      have ht : (Char.ofNat (48 + n % 10)).toNat = 48 + n % 10 :=
        charOfNat_toNat _ (by omega)
      refine ⟨d ++ [Char.ofNat (48 + n % 10)], ?_, by simp, ?_, ?_⟩
      · rw [natDecDigitsAux, if_neg h10, hd]
        simp
      · intro c hc
        simp at hc
        rcases hc with hc | hc
        · exact hdig c hc
        · subst hc
          rw [ht]
          omega
      · intro a
        have h1 : (d ++ [Char.ofNat (48 + n % 10)]) ++ acc =
            d ++ (Char.ofNat (48 + n % 10) :: acc) := by simp
        rw [h1, hval a]
        simp only [digitsValAux, isAsciiDigit, ht]
        rw [if_pos (by simp; omega)]
        have h2 : (a * 10 ^ d.length + n / 10) * 10 + (48 + n % 10 - 48) =
            a * 10 ^ (d.length + 1) + n := by
          have hmod := Nat.div_add_mod n 10
          ring_nf
          omega
        rw [h2]
        simp

theorem natDecDigits_spec (n : Nat) :
    natDecDigits n ≠ [] ∧ (∀ c ∈ natDecDigits n, 48 ≤ c.toNat ∧ c.toNat ≤ 57) ∧
      digitsVal (natDecDigits n) = some n := by
  obtain ⟨d, hd, hne, hdig, hval⟩ := natDecDigitsAux_spec (n + 1) n [] (by omega)
  unfold natDecDigits
  rw [hd]
  simp only [List.append_nil]
  refine ⟨hne, hdig, ?_⟩
  have := hval 0
  simp only [List.append_nil, digitsValAux] at this
  rw [digitsVal, if_neg (by simp [hne])]
  rw [this]
  simp

/-- One-step unfolding of the scan loop on a nonempty input with fuel left
(definitional, stated once so proofs can rewrite with it). -/
theorem atomizeLoop_cons (fuel : Nat) (c : Char) (rest : List Char)
    (acc : List Object) (buf : List Char) :
    atomizeLoop (fuel + 1) (c :: rest) acc buf =
      (if c = '"' then
        match atomizePush acc buf with
        | Except.error e => Except.error e
        | Except.ok acc1 =>
          match charsToStr rest "" with
          | Except.error e => Except.error e
          | Except.ok (s, rest2) => atomizeLoop fuel rest2 (acc1 ++ [.str s]) []
      else if isWhitespaceChar c then
        match atomizePush acc buf with
        | Except.error e => Except.error e
        | Except.ok acc1 => atomizeLoop fuel rest acc1 []
      else if c = '.' then
        match buf with
        | [] => Except.error .panicked
        | c0 :: _ =>
          if isNumericChar c0 then atomizeLoop fuel rest acc (buf ++ ['.'])
          else
            match atomizePush acc buf with
            | Except.error e => Except.error e
            | Except.ok acc1 => atomizeLoop fuel rest (acc1 ++ [.symbol "."]) []
      else if isAsciiPunct c && c ≠ '_' then
        match atomizePush acc buf with
        | Except.error e => Except.error e
        | Except.ok acc1 => atomizeLoop fuel rest (acc1 ++ [.symbol (String.mk [c])]) []
      else atomizeLoop fuel rest acc (buf ++ [c])) := rfl

/-- Scanning a block of ASCII digit characters just appends them to the
accumulation buffer. -/
theorem atomizeLoop_digits (l : List Char) :
    ∀ (rest : List Char) (acc : List Object) (buf : List Char) (m : Nat),
      (∀ c ∈ l, 48 ≤ c.toNat ∧ c.toNat ≤ 57) →
      atomizeLoop (l.length + m) (l ++ rest) acc buf = atomizeLoop m rest acc (buf ++ l) := by
  induction l with
  | nil => simp
  | cons c l ihl =>
    intro rest acc buf m hd
    have hc := hd c (by simp)
    have hq : c ≠ '"' :=
      char_ne_of_toNat_ne c '"' (by have h34 : ('"').toNat = 34 := rfl; omega)
    have hw : ¬(isWhitespaceChar c = true) := by
      simp only [isWhitespaceChar]
      simp
      omega
    have hdot : c ≠ '.' :=
      char_ne_of_toNat_ne c '.' (by have h46 : ('.').toNat = 46 := rfl; omega)
    have hp1 : isAsciiPunct c = false := by
      simp only [isAsciiPunct]
      simp
      omega
    have h1 : (c :: l).length + m = (l.length + m) + 1 := by simp; omega
    rw [h1]
    show atomizeLoop ((l.length + m) + 1) (c :: (l ++ rest)) acc buf = _
    rw [atomizeLoop_cons, if_neg hq, if_neg hw, if_neg hdot, if_neg (by simp [hp1]),
      ihl rest acc (buf ++ [c]) m (fun c hc => hd c (by simp [hc]))]
    simp

/-- Parsing one leading atom that is none of the three opening delimiter
symbols pops and returns it verbatim. -/
theorem parseMutExpr_atom (fuel : Nat) (x : Object) (r : List Object)
    (hp : x ≠ .symbol "(") (hb : x ≠ .symbol "[") (hm : x ≠ .symbol "\x7b") :
    parseMutExpr (fuel + 1) (x :: r) = .ok (x, r) := by
  rw [parseMutExpr, if_neg (by simp [eqObject_symbol_false _ _ hp]),
    if_neg (by simp [eqObject_symbol_false _ _ hb]),
    if_neg (by simp [eqObject_symbol_false _ _ hm])]

/-- Round-trip core: the tokenizer turns the decimal digits of a
nonnegative in-range `i64` followed by a space into the single atom
`Integer(i)`. -/
theorem atomizeExpr_natDigits (i : Int) (h0 : 0 ≤ i) (h1 : i < 2 ^ 63) :
    atomizeExpr (intDisplay i ++ " ") = .ok [.integer i] := by
  obtain ⟨hne, hdig, hval⟩ := natDecDigits_spec i.toNat
  have hdata : (intDisplay i ++ " ").data = natDecDigits i.toNat ++ [' '] := by
    unfold intDisplay
    rw [if_neg (by omega)]
    show (String.mk (natDecDigits i.toNat) ++ " ").data = _
    rw [String.data_append]
  unfold atomizeExpr
  rw [hdata]
  have hfuel : (natDecDigits i.toNat ++ [' ']).length + 1 =
      (natDecDigits i.toNat).length + (1 + 1) := by simp
  rw [hfuel, atomizeLoop_digits _ [' '] [] [] (1 + 1) hdig]
  simp only [List.nil_append]
  -- the space flushes the digit buffer, then the input is exhausted
  show (match atomizePush [] (natDecDigits i.toNat) with
    | Except.error e => Except.error e
    | Except.ok acc1 => atomizeLoop 1 [] acc1 []) = _
  obtain ⟨c, cs, hcs⟩ : ∃ c cs, natDecDigits i.toNat = c :: cs := by
    cases h : natDecDigits i.toNat with
    | nil => exact absurd h hne
    | cons c cs => exact ⟨c, cs, rfl⟩
  rw [hcs]
  have hc := hdig c (by rw [hcs]; simp)
  rw [atomizePush, if_pos (by simp [isNumericChar, isAsciiDigit]; omega)]
  have hplus : c ≠ '+' :=
    char_ne_of_toNat_ne c '+' (by have h43 : ('+').toNat = 43 := rfl; omega)
  have hminus : c ≠ '-' :=
    char_ne_of_toNat_ne c '-' (by have h45 : ('-').toNat = 45 := rfl; omega)
  rw [i64FromStr, if_neg hplus, if_neg hminus, ← hcs, hval]
  have hle : ((i.toNat : Nat) : Int) ≤ i64Max := by
    have hp : (2 : Int) ^ 63 = 9223372036854775808 := by norm_num
    have hm : i64Max = 9223372036854775807 := by unfold i64Max; norm_num
    omega
  simp only [Option.some_bind]
  rw [if_pos hle]
  simp [Int.toNat_of_nonneg h0]
  rfl

/-- Remainders returned by the structural parser are suffixes of the atom
sequence it was given. -/
theorem parse_suffix (fuel : Nat) :
    (∀ e v r, parseMutExpr fuel e = .ok (v, r) → r <:+ e) ∧
    (∀ d e seg r, parseList fuel d e = .ok (seg, r) → r <:+ e) ∧
    (∀ acc e v r, parseVecItems fuel acc e = .ok (v, r) → r <:+ e) ∧
    (∀ acc e v r, parseMapItems fuel acc e = .ok (v, r) → r <:+ e) := by
  induction fuel with
  | zero =>
    refine ⟨?_, ?_, ?_, ?_⟩
    · intro e v r h
      simp [parseMutExpr] at h
    · intro d e seg r h
      simp [parseList] at h
    · intro acc e v r h
      simp [parseVecItems] at h
    · intro acc e v r h
      simp [parseMapItems] at h
  | succ fuel ih =>
    obtain ⟨ih1, ih2, ih3, ih4⟩ := ih
    refine ⟨?_, ?_, ?_, ?_⟩
    · intro e v r h
      cases e with
      | nil => simp [parseMutExpr] at h
      | cons x rest =>
        rw [parseMutExpr] at h
        by_cases hp : eqObject x (.symbol "(") = true
        · rw [if_pos hp] at h
          cases heq : parseList fuel .paren rest with
          | error e => rw [heq] at h; simp at h
          | ok p =>
            obtain ⟨lst, r0⟩ := p
            rw [heq] at h
            replace h : Except.ok (Object.list lst, r0.tail) = Except.ok (v, r) := h
            simp only [Except.ok.injEq, Prod.mk.injEq] at h
            obtain ⟨h1, h2⟩ := h
            subst h2
            exact ((List.tail_suffix r0).trans (ih2 .paren rest lst r0 heq)).trans
              (List.suffix_cons x rest)
        · rw [if_neg hp] at h
          by_cases hb : eqObject x (.symbol "[") = true
          · rw [if_pos hb] at h
            exact (ih3 [] rest v r h).trans (List.suffix_cons x rest)
          · rw [if_neg hb] at h
            by_cases hm : eqObject x (.symbol "\x7b") = true
            · rw [if_pos hm] at h
              exact (ih4 [] rest v r h).trans (List.suffix_cons x rest)
            · rw [if_neg hm] at h
              simp only [Except.ok.injEq, Prod.mk.injEq] at h
              obtain ⟨h1, h2⟩ := h
              subst h2
              exact List.suffix_cons x rest
    · intro d e seg r h
      cases e with
      | nil => simp [parseList] at h
      | cons x rest =>
        rw [parseList] at h
        by_cases hd : delimTest d x = true
        · rw [if_pos hd] at h
          simp only [Except.ok.injEq, Prod.mk.injEq] at h
          obtain ⟨h1, h2⟩ := h
          subst h2
          exact List.suffix_refl _
        · rw [if_neg hd] at h
          cases heq : parseMutExpr fuel (x :: rest) with
          | error e => rw [heq] at h; simp at h
          | ok p =>
            obtain ⟨v0, r0⟩ := p
            rw [heq] at h
            replace h :
                (match parseList fuel d r0 with
                  | Except.ok (seg, r2) => Except.ok (v0 :: seg, r2)
                  | Except.error e => Except.error e) = Except.ok (seg, r) := h
            cases heq2 : parseList fuel d r0 with
            | error e => rw [heq2] at h; simp at h
            | ok p2 =>
              obtain ⟨seg0, r2⟩ := p2
              rw [heq2] at h
              replace h : Except.ok (v0 :: seg0, r2) = Except.ok (seg, r) := h
              simp only [Except.ok.injEq, Prod.mk.injEq] at h
              obtain ⟨h1, h2⟩ := h
              subst h2
              exact (ih2 d r0 seg0 r2 heq2).trans (ih1 (x :: rest) v0 r0 heq)
    · intro acc e v r h
      cases e with
      | nil => simp [parseVecItems] at h
      | cons x rest =>
        rw [parseVecItems] at h
        by_cases hcl : eqObject x (.symbol "]") = true
        · rw [if_pos hcl] at h
          simp only [Except.ok.injEq, Prod.mk.injEq] at h
          obtain ⟨h1, h2⟩ := h
          subst h2
          exact List.suffix_cons x rest
        · rw [if_neg hcl] at h
          have hsub : (if eqObject x (.symbol ",") then rest else x :: rest) <:+ x :: rest := by
            by_cases hx : eqObject x (.symbol ",") = true
            · rw [if_pos hx]
              exact List.suffix_cons x rest
            · rw [if_neg hx]
          cases heq : parseList fuel .vec
              (if eqObject x (.symbol ",") then rest else x :: rest) with
          | error e => rw [heq] at h; simp at h
          | ok p =>
            obtain ⟨seg0, r0⟩ := p
            rw [heq] at h
            replace h :
                (if (seg0.length == 1) = true then parseVecItems fuel (acc ++ seg0) r0
                  else Except.error ()) = Except.ok (v, r) := h
            by_cases hlen : (seg0.length == 1) = true
            · rw [if_pos hlen] at h
              exact (ih3 (acc ++ seg0) r0 v r h).trans ((ih2 _ _ seg0 r0 heq).trans hsub)
            · rw [if_neg hlen] at h
              simp at h
    · intro acc e v r h
      cases e with
      | nil => simp [parseMapItems] at h
      | cons x rest =>
        rw [parseMapItems] at h
        by_cases hcl : eqObject x (.symbol "\x7d") = true
        · rw [if_pos hcl] at h
          simp only [Except.ok.injEq, Prod.mk.injEq] at h
          obtain ⟨h1, h2⟩ := h
          subst h2
          exact List.suffix_cons x rest
        · rw [if_neg hcl] at h
          have hsub : (if eqObject x (.symbol ",") then rest else x :: rest) <:+ x :: rest := by
            by_cases hx : eqObject x (.symbol ",") = true
            · rw [if_pos hx]
              exact List.suffix_cons x rest
            · rw [if_neg hx]
          cases heq : parseList fuel .brace
              (if eqObject x (.symbol ",") then rest else x :: rest) with
          | error e => rw [heq] at h; simp at h
          | ok p =>
            obtain ⟨seg0, r0⟩ := p
            rw [heq] at h
            rcases seg0 with _ | ⟨k, _ | ⟨colon, _ | ⟨v0, _ | ⟨e4, t⟩⟩⟩⟩
            · simp at h
            · simp at h
            · simp at h
            · replace h :
                  (if eqObject colon (Object.symbol ":") = true then
                    parseMapItems fuel (mapInsert acc k v0) r0
                  else Except.error ()) = Except.ok (v, r) := h
              by_cases hcolon : eqObject colon (.symbol ":") = true
              · rw [if_pos hcolon] at h
                exact (ih4 (mapInsert acc k v0) r0 v r h).trans
                  ((ih2 _ _ _ r0 heq).trans hsub)
              · rw [if_neg hcolon] at h
                simp at h
            · simp at h

/-- Definitional equations of `eqObject` on scalar constructor pairs (the
fuel is the constant `2` there, so these hold by `rfl`). -/
theorem eqObject_symbol_symbol (s t : String) :
    eqObject (.symbol s) (.symbol t) = (s == t) := rfl

theorem eqObject_null_bool (b : Bool) : eqObject .null (.bool b) = !b := rfl

theorem eqObject_bool_null (b : Bool) : eqObject (.bool b) .null = false := rfl

theorem eqObject_integer_float (n : Int) (x : Rat) :
    eqObject (.integer n) (.float x) = ((n : Rat) == x) := rfl

theorem eqObject_float_integer (x : Rat) (n : Int) :
    eqObject (.float x) (.integer n) = (x == (n : Rat)) := rfl

/-- `parse_list` with the `)` delimiter fails on any atom sequence that
contains no `Symbol(")")` at all: the loop can only stop successfully on
that delimiter, every step keeps the remainder a suffix, and exhausting
the input is `ParseObjectError`. -/
theorem parseList_paren_fail :
    ∀ (fuel : Nat) (e : List Object), Object.symbol ")" ∉ e →
      parseList fuel .paren e = .error () := by
  intro fuel
  induction fuel with
  | zero => intro e hmem; rfl
  | succ fuel ih =>
    intro e hmem
    cases e with
    | nil => rfl
    | cons x rest =>
      have hx : x ≠ .symbol ")" := by
        intro hh
        exact hmem (by rw [hh]; exact List.mem_cons_self _ _)
      have hd : delimTest .paren x = false := by
        show eqObject x (.symbol ")") = false
        exact eqObject_symbol_false x ")" hx
      rw [parseList, if_neg (by simp [hd])]
      cases heq : parseMutExpr fuel (x :: rest) with
      | error e => rfl
      | ok p =>
        obtain ⟨v0, r0⟩ := p
        have hr0 : Object.symbol ")" ∉ r0 := by
          intro hm
          exact hmem (((parse_suffix fuel).1 (x :: rest) v0 r0 heq).mem hm)
        show (match parseList fuel Delim.paren r0 with
          | Except.ok (seg, r2) => Except.ok (v0 :: seg, r2)
          | Except.error e => Except.error e) = Except.error ()
        rw [ih r0 hr0]

/-- Round-trip core, parsing layer: a single `Integer` atom parses to that
integer. -/
theorem fromStr_intDisplay (i : Int) (h0 : 0 ≤ i) (h1 : i < 2 ^ 63) :
    Object.fromStr (intDisplay i ++ " ") = .ok (.integer i) := by
  have hatoms := atomizeExpr_natDigits i h0 h1
  have hp : parseExpr [Object.integer i] = .ok (.integer i) := by
    unfold parseExpr
    have hf : 3 * [Object.integer i].length + 3 = 5 + 1 := by simp
    rw [hf, parseMutExpr_atom 5 _ _ (by simp) (by simp) (by simp)]
  unfold Object.fromStr
  simp only [hatoms, hp]

/-! ## Helper lemmas: evaluator -/

theorem globalTable_eq :
    globalTable = [(.symbol "get", .other .pGet), (.symbol "quit", .other .pQuit)] := rfl

theorem evalSymbol_unbound (s : String) (h1 : s ≠ "get") (h2 : s ≠ "quit") :
    evalSymbol s = .symbol s := by
  unfold evalSymbol
  have hnone : mapGet globalTable (.symbol s) = none := by
    show mapGet [(.symbol "get", .other .pGet), (.symbol "quit", .other .pQuit)]
      (.symbol s) = none
    rw [mapGet, if_neg (by simp [objHash, eqObject_symbol_symbol, h1]),
      mapGet, if_neg (by simp [objHash, eqObject_symbol_symbol, h2]), mapGet]
  rw [hnone]

theorem eval_symbol_eq (s : String) : eval (.symbol s) = some (evalSymbol s) := rfl

theorem eval_list_eq (l : List Object) : eval (.list l) = evalList l := rfl

theorem evalList_cons (h : Object) (t : List Object) :
    evalList (h :: t) =
      (match eval h with
        | none => none
        | some o =>
          match o with
          | .other p => applyPrim p (.list (.other p :: t))
          | _ => some .null) := rfl

/-! ## Helper lemmas: agreement of the two equality implementations -/

/-- Strong-induction core for the comparison of the src/main.rs and
src/object.rs equalities: they agree whenever the left value contains no
`Map` and no `Bool(false)` anywhere. -/
theorem eqMain_agree_aux :
    ∀ (n : Nat) (a b : ObjectM), sizeOf a ≤ n → noMap a = true → noBoolFalse a = true →
      eqMain a b = eqObject (toObj a) (toObj b) := by
  intro n
  induction n with
  | zero =>
    intro a b hsz hm hf
    exfalso
    cases a <;> simp at hsz
  | succ n ihn =>
    intro a b hsz hm hf
    have hlist : ∀ (xs : List ObjectM), sizeOf xs ≤ n → noMapList xs = true →
        noBoolFalseList xs = true → ∀ ys,
        eqMainList xs ys = eqObject (.list (toObjList xs)) (.list (toObjList ys)) := by
      intro xs
      induction xs with
      | nil =>
        intro _ _ _ ys
        cases ys with
        | nil => rfl
        | cons y ys =>
          rw [show toObjList (y :: ys) = toObj y :: toObjList ys from rfl,
            show toObjList ([] : List ObjectM) = [] from rfl, eqObject_list_nil_cons]
          rfl
      | cons x xs ihxs =>
        intro hsz2 hm2 hf2 ys
        simp only [List.cons.sizeOf_spec] at hsz2
        simp only [noMapList, Bool.and_eq_true] at hm2
        simp only [noBoolFalseList, Bool.and_eq_true] at hf2
        cases ys with
        | nil =>
          rw [show toObjList (x :: xs) = toObj x :: toObjList xs from rfl,
            show toObjList ([] : List ObjectM) = [] from rfl, eqObject_list_cons_nil]
          rfl
        | cons y ys =>
          rw [show toObjList (x :: xs) = toObj x :: toObjList xs from rfl,
            show toObjList (y :: ys) = toObj y :: toObjList ys from rfl,
            eqObject_list_cons,
            show eqMainList (x :: xs) (y :: ys) = (eqMain x y && eqMainList xs ys) from rfl,
            ihn x y (by omega) hm2.1 hf2.1, ihxs (by omega) hm2.2 hf2.2 ys]
    cases a <;> cases b <;> try rfl
    case null.bool j => cases j <;> rfl
    case bool.null i =>
      simp only [noBoolFalse] at hf
      subst hf
      rfl
    case list.list i j =>
      simp only [ObjectM.list.sizeOf_spec] at hsz
      exact hlist i (by omega) hm hf j
    case vector.vector i j =>
      simp only [ObjectM.vector.sizeOf_spec] at hsz
      rw [show toObj (ObjectM.vector i) = .vector (toObjList i) from rfl,
        show toObj (ObjectM.vector j) = .vector (toObjList j) from rfl,
        eqObject_vector_eq_list]
      exact hlist i (by omega) hm hf j
    all_goals try (exfalso; simp [noMap] at hm; done)
    all_goals
      rw [eqObject_cross _ _ (by simp [toObj, variantTag]) (by simp [toObj, variantTag])
        (by simp [toObj, variantTag]) (by simp [toObj, variantTag])]
    all_goals rfl

/-! ## Claim theorems -/

/-- C1: the claim states that after the scan loop ends the accumulation
buffer is flushed once more, so a trailing token (e.g. in `"5"` or
`"foo"`) is classified and emitted as the final atom.  The code performs
no such flush: evaluating `atomize_expr` at those inputs returns an EMPTY
atom sequence (the trailing token is dropped, and `from_str` then fails),
while the same token followed by a delimiter is kept.  This confirms the
defect the specification itself flags in its design notes. -/
theorem c1_trailing_token_dropped :
    atomizeExpr "5" = .ok [] ∧ atomizeExpr "foo" = .ok [] ∧
    Object.fromStr "5" = .error .parseFail ∧
    atomizeExpr "5 " = .ok [.integer 5] ∧
    atomizeExpr "foo " = .ok [.symbol "foo"] :=
  ⟨rfl, rfl, rfl, rfl, rfl⟩

/-- C2 counterexample: the claim quantifies over every 64-bit integer.
It fails at `i = 5` — the decimal text `"5"` does not parse at all
(trailing token dropped by the tokenizer) — and at `i = -1` — the text
`"-1"` lexes `-` as a separate one-character `Symbol` and drops the
trailing `1`, so parsing yields `Symbol("-")`, not `Integer(-1)`. -/
theorem c2_counterexample :
    Object.fromStr "5" = .error .parseFail ∧
    Object.fromStr "-1" = .ok (.symbol "-") ∧
    Object.fromStr "-1 " = .ok (.symbol "-") :=
  ⟨rfl, rfl, rfl⟩

/-- C2 as amended: for every 64-bit integer `i` with `0 ≤ i`, parsing the
decimal text of `i` (which is also the Display text of `Integer(i)`)
followed by a whitespace delimiter yields `Integer(i)`. -/
theorem c2_nonneg_roundtrip (i : Int) (h0 : 0 ≤ i) (h1 : i < 2 ^ 63) :
    Object.fromStr (intDisplay i ++ " ") = .ok (.integer i) :=
  fromStr_intDisplay i h0 h1

theorem c2_witness :
    0 ≤ (12345 : Int) ∧ (12345 : Int) < 2 ^ 63 ∧
    Object.fromStr (intDisplay 12345 ++ " ") = .ok (.integer 12345) :=
  ⟨by decide, by decide, c2_nonneg_roundtrip 12345 (by decide) (by decide)⟩

/-- C9: the claim states the tokenizer is total and that a `.` that does
not follow a digit-started buffer is emitted as the one-character Symbol
`.`.  In fact a `.` scanned while the buffer is EMPTY evaluates
`s.chars().next().unwrap()` on `None` and panics (process abort), as on
the inputs `"."`, `".5"` and `"( . )"`; only a nonempty non-digit buffer
takes the punctuation path (e.g. `"a. "`). -/
theorem c9_dot_empty_buffer_panics :
    atomizeExpr "." = .error .panicked ∧
    atomizeExpr ".5" = .error .panicked ∧
    atomizeExpr "( . )" = .error .panicked ∧
    atomizeExpr "a. " = .ok [.symbol "a", .symbol "."] ∧
    atomizeExpr "1.5 " = .ok [.float (mkRat 3 2)] :=
  ⟨rfl, rfl, rfl, rfl, rfl⟩

/-- C3 counterexample: the claim asserts `Null == Bool(false)` AND
`Bool(false) == Null`.  The src/object.rs equality has a `(Null, Bool)`
arm but no `(Bool, Null)` arm, so the second comparison falls into the
`_ => false` catch-all: equality is NOT symmetric on this pair. -/
theorem c3_counterexample :
    eqObject (.bool false) .null = false ∧ eqObject .null (.bool false) = true :=
  ⟨rfl, rfl⟩

/-- C3 as amended: cross-numeric equality holds exactly as stated and is
symmetric; `Null == Bool(false)` holds but `Bool(false) == Null` is false
(the implementation is asymmetric on that pair); every other cross-variant
pair compares unequal; `List`/`Vector` equality is element-wise and
variant-exact, and `Map` equality is equal-length containment through the
hash-gated lookup. -/
theorem c3_equality_spec :
    (∀ (i : Int) (f : Rat),
      eqObject (.integer i) (.float f) = ((i : Rat) == f) ∧
      eqObject (.float f) (.integer i) = (f == (i : Rat)) ∧
      eqObject (.integer i) (.float f) = eqObject (.float f) (.integer i)) ∧
    (eqObject .null (.bool false) = true ∧ eqObject (.bool false) .null = false) ∧
    (∀ a b, variantTag a ≠ variantTag b →
      ¬(variantTag a = 0 ∧ variantTag b = 1) →
      ¬(variantTag a = 2 ∧ variantTag b = 3) →
      ¬(variantTag a = 3 ∧ variantTag b = 2) → eqObject a b = false) ∧
    (eqObject (.list []) (.list []) = true ∧
      (∀ a b as1 bs1, eqObject (.list (a :: as1)) (.list (b :: bs1)) =
        (eqObject a b && eqObject (.list as1) (.list bs1))) ∧
      (∀ b bs1, eqObject (.list []) (.list (b :: bs1)) = false) ∧
      (∀ a as1, eqObject (.list (a :: as1)) (.list []) = false)) ∧
    (∀ x y, eqObject (.vector x) (.vector y) = eqObject (.list x) (.list y)) ∧
    (∀ x y, eqObject (.map x) (.map y) =
      (x.length == y.length &&
        x.all fun kv =>
          match mapGet y kv.1 with
          | some w => eqObject kv.2 w
          | none => false)) := by
  refine ⟨?_, ⟨rfl, rfl⟩, eqObject_cross, ⟨rfl, eqObject_list_cons,
    eqObject_list_nil_cons, eqObject_list_cons_nil⟩, eqObject_vector_eq_list, eqObject_map⟩
  intro i f
  refine ⟨rfl, rfl, ?_⟩
  rw [eqObject_integer_float, eqObject_float_integer]
  by_cases h : (i : Rat) = f
  · simp [h]
  · simp [h]
    exact fun hh => h hh.symm

theorem c3_witness :
    eqObject (.str "a") (.integer 1) = false :=
  c3_equality_spec.2.2.1 (.str "a") (.integer 1)
    (by decide) (by decide) (by decide) (by decide)

/-- C4 counterexample: the claim extends last-write-wins to keys that are
equal under `Object` equality but hash differently, naming
`Integer(1) == Float(1.0)`.  `Integer(1)` hashes its `i64` while
`Float(1.0)` hashes nothing, so the two keys probe different slots: the
parsed literal keeps BOTH entries instead of one. -/
theorem c4_counterexample :
    Object.fromStr "\x7b1: 10, 1.0: 20\x7d" =
      .ok (.map [(.integer 1, .integer 10), (.float 1, .integer 20)]) ∧
    eqObject (.integer 1) (.float 1) = true ∧
    objHash (.integer 1) ≠ objHash (.float 1) :=
  ⟨rfl, rfl, by decide⟩

/-- C4 as amended: for a map literal of two pairs whose keys are equal
under `Object` equality (later key compared against the earlier) AND have
equal hash streams, insertion is last-write-wins: the map keeps one entry,
bound to the later value, and looking the key up yields the later value.
Keys equal under `Object` equality with different hash streams (such as
`Integer(1)` and `Float(1.0)`) instead produce two separate entries. -/
theorem c4_last_write_wins (k v k2 v2 : Object)
    (hh : objHash k2 = objHash k) (he : eqObject k2 k = true) :
    mapInsert (mapInsert [] k v) k2 v2 = [(k, v2)] ∧
    mapGet (mapInsert (mapInsert [] k v) k2 v2) k2 = some v2 ∧
    Object.fromStr "\x7b1: 10, 1: 20\x7d" = .ok (.map [(.integer 1, .integer 20)]) := by
  have hcond : (objHash k2 == objHash k && eqObject k2 k) = true := by
    simp [hh, he]
  have hins : mapInsert (mapInsert [] k v) k2 v2 = [(k, v2)] := by
    show (if objHash k2 == objHash k && eqObject k2 k then [(k, v2)]
      else (k, v) :: mapInsert [] k2 v2) = [(k, v2)]
    rw [if_pos hcond]
  refine ⟨hins, ?_, rfl⟩
  rw [hins]
  show (if objHash k2 == objHash k && eqObject k2 k then some v2 else mapGet [] k2) = some v2
  rw [if_pos hcond]

theorem c4_witness :
    objHash (.integer 1) = objHash (.integer 1) ∧
    eqObject (.integer 1) (.integer 1) = true ∧
    mapInsert (mapInsert [] (.integer 1) (.integer 10)) (.integer 1) (.integer 20) =
      [(.integer 1, .integer 20)] :=
  ⟨rfl, rfl, (c4_last_write_wins (.integer 1) (.integer 10) (.integer 1) (.integer 20)
    rfl rfl).1⟩

/-- C10 counterexample: the claim asserts the two `PartialEq`
implementations agree on every `Map`-free-or-not pair, in particular on
Map-to-Map comparisons and on `Bool(false)` vs `Null`.  They disagree on
both: src/main.rs has no `Map` arm (two empty maps compare `false` there,
`true` in src/object.rs) and it HAS a `(Bool, Null)` arm (absent from
src/object.rs). -/
theorem c10_counterexample :
    eqMain (.map []) (.map []) = false ∧
    eqObject (toObj (.map [])) (toObj (.map [])) = true ∧
    eqMain (.bool false) .null = true ∧
    eqObject (toObj (.bool false)) (toObj .null) = false :=
  ⟨rfl, rfl, rfl, rfl⟩

/-- C10 as amended: the two equality implementations agree on every pair
whose FIRST value contains no `Map` and no `Bool(false)` anywhere (the
second value is arbitrary); the divergences are exactly Map-to-Map
comparisons and `Bool(false)` on the left of `Null`. -/
theorem c10_agreement (a b : ObjectM) (hm : noMap a = true)
    (hf : noBoolFalse a = true) :
    eqMain a b = eqObject (toObj a) (toObj b) :=
  eqMain_agree_aux (sizeOf a) a b le_rfl hm hf

theorem c10_witness :
    noMap (.list [.integer 1, .bool true]) = true ∧
    noBoolFalse (.list [.integer 1, .bool true]) = true ∧
    eqMain (.list [.integer 1, .bool true]) (.list [.float 1, .bool true]) =
      eqObject (toObj (.list [.integer 1, .bool true]))
        (toObj (.list [.float 1, .bool true])) :=
  ⟨rfl, rfl, c10_agreement (.list [.integer 1, .bool true])
    (.list [.float 1, .bool true]) rfl rfl⟩

/-- C5: evaluating a `List`.  The empty list evaluates to `Null`.  For a
nonempty list the head is evaluated first; if the result is a capability
handle, the handle is invoked with the single argument
`List(evaluated head :: original unevaluated tail)`; any other head
result yields `Null`.  (`none` marks process exit by `quit`, which also
propagates out of the head evaluation.) -/
theorem c5_eval_list :
    (eval (.list []) = some .null) ∧
    (∀ h t p, eval h = some (.other p) →
      eval (.list (h :: t)) = applyPrim p (.list (.other p :: t))) ∧
    (∀ h t v, eval h = some v → (∀ p, v ≠ .other p) →
      eval (.list (h :: t)) = some .null) ∧
    (∀ h t, eval h = none → eval (.list (h :: t)) = none) := by
  refine ⟨rfl, ?_, ?_, ?_⟩
  · intro h t p hh
    rw [eval_list_eq, evalList_cons, hh]
  · intro h t v hh hnp
    rw [eval_list_eq, evalList_cons, hh]
    cases v <;> first | rfl | exact absurd rfl (hnp _)
  · intro h t hh
    rw [eval_list_eq, evalList_cons, hh]

theorem c5_witness :
    eval (.symbol "get") = some (.other .pGet) ∧
    eval (.list [.symbol "get"]) = applyPrim .pGet (.list [.other .pGet]) ∧
    eval (.list [.symbol "get"]) = some .null :=
  ⟨rfl, c5_eval_list.2.1 (.symbol "get") [] .pGet rfl, rfl⟩

/-- C6: the primitive `get` on its call form.  Fewer than three elements:
`Null`.  Vector container: `Integer` index in range (after the `i64` to
`usize` cast) returns the element, out of range — including every
negative index, whose cast wraps to at least `2^63` — or a non-`Integer`
third element returns `Null`.  Map container: hash-gated lookup of the
third element, `Null` when absent.  Any other container shape: `Null`.
The in-range bound `v.length ≤ 2 ^ 63` in the negative-index part
reflects `Vec`'s `isize::MAX` capacity bound; `-2^63 ≤ i` is the `i64`
range. -/
theorem c6_get :
    (∀ l, l.length < 3 → getPrim (.list l) = .null) ∧
    (∀ a v i rest x, v.get? (usizeOfI64 i) = some x →
      getPrim (.list (a :: .vector v :: .integer i :: rest)) = x) ∧
    (∀ a v i rest, v.get? (usizeOfI64 i) = none →
      getPrim (.list (a :: .vector v :: .integer i :: rest)) = .null) ∧
    (∀ (a : Object) (v : List Object) (i : Int) (rest : List Object),
      -(2 : Int) ^ 63 ≤ i → i < 0 → v.length ≤ 2 ^ 63 →
      getPrim (.list (a :: .vector v :: .integer i :: rest)) = .null) ∧
    (∀ a v t rest, (∀ n, t ≠ .integer n) →
      getPrim (.list (a :: .vector v :: t :: rest)) = .null) ∧
    (∀ a m k rest, getPrim (.list (a :: .map m :: k :: rest)) =
      (match mapGet m k with
        | some x => x
        | none => .null)) ∧
    (∀ a s t rest, (∀ v, s ≠ .vector v) → (∀ m, s ≠ .map m) →
      getPrim (.list (a :: s :: t :: rest)) = .null) := by
  refine ⟨?_, ?_, ?_, ?_, ?_, ?_, ?_⟩
  · intro l hl
    rcases l with _ | ⟨a, _ | ⟨b, _ | ⟨c, t⟩⟩⟩
    · rfl
    · rfl
    · rfl
    · simp at hl
      omega
  · intro a v i rest x hx
    show (match v.get? (usizeOfI64 i) with
      | some value => value
      | none => Object.null) = x
    rw [hx]
  · intro a v i rest hx
    show (match v.get? (usizeOfI64 i) with
      | some value => value
      | none => Object.null) = .null
    rw [hx]
  · intro a v i rest hlo hneg hlen
    have h63n : (2 : Nat) ^ 63 = 9223372036854775808 := by norm_num
    have hbig : 2 ^ 63 ≤ usizeOfI64 i := by
      unfold usizeOfI64
      have h64 : (2 : Int) ^ 64 = 18446744073709551616 := by norm_num
      have h63 : (2 : Int) ^ 63 = 9223372036854775808 := by norm_num
      rw [h63n, h64]
      rw [h63] at hlo
      omega
    have hnone : v.get? (usizeOfI64 i) = none := by
      rw [List.get?_eq_none, h63n] at *
      omega
    show (match v.get? (usizeOfI64 i) with
      | some value => value
      | none => Object.null) = .null
    rw [hnone]
  · intro a v t rest hnt
    cases t <;> first | rfl | exact absurd rfl (hnt _)
  · intro a m k rest
    rfl
  · intro a s t rest hnv hnm
    cases s <;> first | rfl | exact absurd rfl (hnv _) | exact absurd rfl (hnm _)

theorem c6_witness :
    [Object.integer 1, .integer 2, .integer 3].get? (usizeOfI64 1) = some (.integer 2) ∧
    getPrim (.list [.other .pGet, .vector [.integer 1, .integer 2, .integer 3],
      .integer 1]) = .integer 2 ∧
    getPrim (.list [.other .pGet, .vector [.integer 1, .integer 2, .integer 3],
      .integer 5]) = .null :=
  ⟨rfl, c6_get.2.1 (.other .pGet) [.integer 1, .integer 2, .integer 3] 1 []
    (.integer 2) rfl, rfl⟩

/-- C7: symbol evaluation never errors.  The global table holds exactly
the bindings `get` and `quit` (installed in that order by
`Evaluator::new`); a bound symbol evaluates to a clone of the bound
capability handle, and every other symbol evaluates to itself. -/
theorem c7_eval_symbol :
    globalTable = [(.symbol "get", .other .pGet), (.symbol "quit", .other .pQuit)] ∧
    eval (.symbol "get") = some (.other .pGet) ∧
    eval (.symbol "quit") = some (.other .pQuit) ∧
    (∀ s, s ≠ "get" → s ≠ "quit" → eval (.symbol s) = some (.symbol s)) := by
  refine ⟨rfl, rfl, rfl, ?_⟩
  intro s h1 h2
  rw [eval_symbol_eq, evalSymbol_unbound s h1 h2]

theorem c7_witness :
    eval (.symbol "foo") = some (.symbol "foo") :=
  c7_eval_symbol.2.2.2 "foo" (by decide) (by decide)

/-- C8: structural parse failures.  A `(` form over an atom sequence that
contains no `Symbol(")")` fails for every fuel (the loop can only stop on
that delimiter and exhausting the atoms is an error), e.g. the input
`"(1 2"`; and in a `[ ... ]` form any comma/bracket-delimited segment that
reduces to a number of parsed values other than exactly one makes the
whole parse fail, e.g. the input `"[1 2]"` whose single segment reduces to
two values. -/
theorem c8_structural_failures :
    (∀ (rest : List Object) (fuel : Nat), Object.symbol ")" ∉ rest →
      parseMutExpr fuel (.symbol "(" :: rest) = .error ()) ∧
    (∀ (fuel : Nat) (acc : List Object) (x : Object) (rest seg r : List Object),
      eqObject x (.symbol "]") = false →
      parseList fuel .vec (if eqObject x (.symbol ",") then rest else x :: rest) =
        .ok (seg, r) →
      seg.length ≠ 1 →
      parseVecItems (fuel + 1) acc (x :: rest) = .error ()) ∧
    Object.fromStr "(1 2" = .error .parseFail ∧
    Object.fromStr "[1 2]" = .error .parseFail := by
  refine ⟨?_, ?_, rfl, rfl⟩
  · intro rest fuel hmem
    cases fuel with
    | zero => rfl
    | succ fuel =>
      rw [parseMutExpr, if_pos (by rw [eqObject_symbol_symbol]; simp),
        parseList_paren_fail fuel rest hmem]
  · intro fuel acc x rest seg r hx hpl hlen
    rw [parseVecItems, if_neg (by simp [hx]), hpl]
    replace hlen : (seg.length == 1) = false := by simp [hlen]
    show (if (seg.length == 1) = true then parseVecItems fuel (acc ++ seg) r
      else Except.error ()) = Except.error ()
    rw [hlen]
    simp

theorem c8_witness :
    Object.symbol ")" ∉ [Object.integer 1, Object.integer 2] ∧
    parseMutExpr 9 (.symbol "(" :: [.integer 1, .integer 2]) = .error () :=
  ⟨by simp, c8_structural_failures.1 [.integer 1, .integer 2] 9 (by simp)⟩

end Fundot
